import Mathlib

/-!
# Verification of the m4a-to-srt conversion pipeline and its front ends

Shallow embedding of the audio-to-subtitle converter of this repository.
The front-end components (file upload validation in FileUploader, the
`ConversionSettings` change handlers, the download-filename computation in
the page submit handlers, and the SRT preview parser `parseSrtContent`)
are translated from the TypeScript/JavaScript sources.  The FastAPI
backend pipeline (`main.py`: segmentation engine, timestamp quantizer,
subtitle encoder, request arbitrator) is not part of the corpus; those
components are modelled from the specification, each marked
`Modelled from the spec:` in its doc comment.

JavaScript numbers are modelled with `ℚ` (exact rationals) and `ℤ`/`ℕ`;
a `NaN` parse result is modelled as `Option.none`.  JavaScript strings
are Lean `String`s; string primitives of the sources (`trim`,
`toLowerCase`, `endsWith`, `replace`, `split`, `parseInt`) are given
explicit executable models over `List Char`.
-/

namespace MicroSaas

/-! ## File uploader (nextjs-frontend FileUploader component)

`handleFileChange` and `handleDrop` both validate the chosen file: the
lowercased name must end with ".m4a" and the size must not exceed
100 * 1024 * 1024 bytes; only then is `onFileSelect` invoked. -/

/-- An uploaded file as the validation code sees it: a name and a size in
bytes. -/
structure MFile where
  name : String
  size : Nat
deriving DecidableEq

/-- The 100 MB limit `maxSize = 100 * 1024 * 1024` from FileUploader. -/
def maxUploadSize : Nat := 100 * 1024 * 1024

/-- Model of JavaScript `toLowerCase` (per-character lowering). -/
def jsToLower (s : String) : String :=
  String.mk (s.data.map Char.toLower)

/-- Model of JavaScript `String.endsWith`. -/
def jsEndsWith (s suffix : String) : Bool :=
  suffix.data.isSuffixOf s.data

/-- The validation both FileUploader handlers perform:
`file.name.toLowerCase().endsWith('.m4a')` and not
`file.size > maxSize`. -/
def validM4aFile (f : MFile) : Bool :=
  jsEndsWith (jsToLower f.name) ".m4a" && !(decide (maxUploadSize < f.size))

/-- `handleFileChange` of FileUploader: takes `event.target.files?.[0]`;
returns the list of `onFileSelect` invocations it performs (empty when
the selection is rejected). -/
def handleFileChange (files : List MFile) : List MFile :=
  match files.head? with
  | none => []
  | some f => if validM4aFile f then [f] else []

/-- `handleDrop` of FileUploader: takes `e.dataTransfer.files[0]`;
returns the list of `onFileSelect` invocations it performs. -/
def handleDrop (files : List MFile) : List MFile :=
  match files.head? with
  | none => []
  | some f => if validM4aFile f then [f] else []

/-- Effect of a sequence of `onFileSelect` invocations on the page's
`file` state (`handleFileSelect` stores the file). -/
def applySelect (selected : Option MFile) (invocations : List MFile) : Option MFile :=
  invocations.foldl (fun _ f => some f) selected

/-! ## Conversion settings (nextjs-frontend ConversionSettings component) -/

/-- The settings object of the next.js page (`page.tsx` `useState`). -/
structure UISettings where
  wordsPerSegment : Int
  frameRate : Rat
  useNaturalSegmentation : Bool
  inputLanguage : String
  targetLanguage : String
deriving DecidableEq

/-- The initial settings state of `page.tsx`:
`{wordsPerSegment: 8, frameRate: 30.0, useNaturalSegmentation: false,
inputLanguage: 'auto', targetLanguage: 'auto'}`. -/
def defaultUISettings : UISettings :=
  { wordsPerSegment := 8
    frameRate := 30
    useNaturalSegmentation := false
    inputLanguage := "auto"
    targetLanguage := "auto" }

/-- `handleWordsPerSegmentChange`: `value = parseInt(e.target.value, 10)`
(`none` models `NaN`); `onSettingsChange` is called exactly when
`value >= 1 && value <= 50`.  The result is the settings object passed to
`onSettingsChange`, or `none` when no call happens. -/
def handleWordsPerSegmentChange (s : UISettings) (input : Option Int) :
    Option UISettings :=
  match input with
  | none => none
  | some v =>
      if 1 ≤ v ∧ v ≤ 50 then some { s with wordsPerSegment := v } else none

/-- `handleFrameRateChange`: `value = parseFloat(e.target.value)` (`none`
models `NaN`); `onSettingsChange` is called exactly when
`value > 0 && value <= 120`. -/
def handleFrameRateChange (s : UISettings) (input : Option Rat) :
    Option UISettings :=
  match input with
  | none => none
  | some v =>
      if 0 < v ∧ v ≤ 120 then some { s with frameRate := v } else none

/-! ## Download filename (page submit handlers)

Both the static page (`a.download = file.name.replace('.m4a', '.srt')`)
and the next.js fallback (`file.name.replace('.m4a', '.srt')`) compute
the suggested output name by JavaScript `String.replace` with a string
pattern, which replaces only the first occurrence, case-sensitively. -/

/-- First-occurrence replacement on character lists: the core of
JavaScript `String.replace` with a string pattern. -/
def replaceOnceL (pat rep : List Char) : List Char → List Char
  | [] => []
  | c :: t =>
      if pat.isPrefixOf (c :: t) then rep ++ (c :: t).drop pat.length
      else c :: replaceOnceL pat rep t

/-- Model of JavaScript `s.replace(pat, rep)` for string patterns. -/
def jsReplaceFirst (s pat rep : String) : String :=
  String.mk (replaceOnceL pat.data rep.data s.data)

/-- The suggested download filename: `file.name.replace('.m4a', '.srt')`. -/
def downloadFilename (name : String) : String :=
  jsReplaceFirst name ".m4a" ".srt"

/-- Substring occurrence test on character lists (used to state when the
first-occurrence replacement hits the extension). -/
def containsL (pat : List Char) : List Char → Bool
  | [] => pat.isEmpty
  | c :: t => pat.isPrefixOf (c :: t) || containsL pat t

/-! ## Data model of the conversion pipeline

Modelled from the spec: `Word` is `{text, start, end}` with times in
seconds; `Cue` is `{index, start, end, text}`.  Times are exact
rationals.  The source field name `end` is a Lean keyword and is
rendered `stop` here. -/

/-- A transcribed word with start/end times in seconds. -/
structure Word where
  text : String
  start : Rat
  stop : Rat
deriving DecidableEq

/-- A subtitle cue: 1-based index, start/end times in seconds, text. -/
structure Cue where
  index : Nat
  start : Rat
  stop : Rat
  text : String
deriving DecidableEq

/-- A natural segment as emitted by the transcript producer (its own
sentence/utterance grouping, with its own boundaries). -/
structure NaturalSegment where
  text : String
  start : Rat
  stop : Rat
deriving DecidableEq

/-! ## Segmentation engine

Modelled from the spec: fixed word-count segmentation partitions the
word sequence into consecutive groups of `words_per_segment` words, the
final group possibly shorter; cue start/end come from the group's first
and last word, the text is the words joined with single spaces. -/

/-- Consecutive groups of `n` words (the final group may be shorter). -/
def wordGroups (n : Nat) : List Word → List (List Word)
  | [] => []
  | w :: ws => (w :: ws.take (n - 1)) :: wordGroups n (ws.drop (n - 1))
termination_by l => l.length
decreasing_by simp only [List.length_drop, List.length_cons]; omega

/-- Start time of a word group: its first word's start. -/
def groupStart : List Word → Rat
  | [] => 0
  | w :: _ => w.start

/-- End time of a word group: its last word's end. -/
def groupStop (g : List Word) : Rat :=
  match g.getLast? with
  | none => 0
  | some w => w.stop

/-- Text of a word group: the words joined with single spaces. -/
def groupText (g : List Word) : String :=
  " ".intercalate (g.map Word.text)

/-- Build cues from word groups, indices counting up from `i`. -/
def cuesFromGroups (i : Nat) : List (List Word) → List Cue
  | [] => []
  | g :: gs => ⟨i, groupStart g, groupStop g, groupText g⟩ :: cuesFromGroups (i + 1) gs

/-- Fixed word-count segmentation: groups of `n` words become 1-indexed
cues. -/
def fixedSegmentation (n : Nat) (ws : List Word) : List Cue :=
  cuesFromGroups 1 (wordGroups n ws)

/-- Build cues from natural segments, indices counting up from `i`. -/
def cuesFromSegments (i : Nat) : List NaturalSegment → List Cue
  | [] => []
  | s :: ss => ⟨i, s.start, s.stop, s.text⟩ :: cuesFromSegments (i + 1) ss

/-- Natural segmentation: one cue per natural segment, boundaries taken
from the segment itself.  Modelled from the spec. -/
def naturalSegmentation (segs : List NaturalSegment) : List Cue :=
  cuesFromSegments 1 segs

/-! ## Timestamp quantizer

Modelled from the spec: a boundary time `t` maps to
`round(t * f) / f`; if rounding would collapse a cue to zero or
negative duration, the end is extended to `start + 1/f`. -/

/-- Quantize a boundary time to the nearest frame at frame rate `f`. -/
def quantizeTime (f t : Rat) : Rat :=
  ((round (t * f) : Int) : Rat) / f

/-- Quantize one cue's boundaries, enforcing a minimum of one frame. -/
def quantizeCue (f : Rat) (c : Cue) : Cue :=
  let s := quantizeTime f c.start
  let e := quantizeTime f c.stop
  ⟨c.index, s, if e ≤ s then s + 1 / f else e, c.text⟩

/-- Quantize every cue of a document. -/
def quantizeDoc (f : Rat) (doc : List Cue) : List Cue :=
  doc.map (quantizeCue f)

/-! ## Subtitle encoder and the SRT preview parser

The encoder is modelled from the spec: each cue renders as a 1-based
index line, a `HH:MM:SS,mmm --> HH:MM:SS,mmm` timestamp line
(millisecond precision, zero-padded, `,` as decimal separator), the cue
text lines, and a blank separator line.  `SrtCue` carries millisecond
timestamps.  The parser `parseSrtLoop`/`parseSrtContent` is translated
from `parseSrtContent` of the SrtPreview component. -/

/-- A cue as the encoder renders it: millisecond timestamps. -/
structure SrtCue where
  index : Nat
  startMs : Nat
  stopMs : Nat
  text : String
deriving DecidableEq

/-- Decimal digit characters, fuel-bounded recursion (the fuel only has
to exceed the number, see `natDigitChars`). -/
def natDigitCharsAux : Nat → Nat → List Char
  | 0, _ => []
  | fuel + 1, n =>
      if n < 10 then [Nat.digitChar n]
      else natDigitCharsAux fuel (n / 10) ++ [Nat.digitChar (n % 10)]

/-- Decimal digit characters of a natural number (most significant
first). -/
def natDigitChars (n : Nat) : List Char := natDigitCharsAux (n + 1) n

/-- `HH:MM:SS,mmm` character rendering of a millisecond timestamp
(two-digit zero-padded hours, minutes, seconds; three-digit
milliseconds). -/
def tsChars (ms : Nat) : List Char :=
  [Nat.digitChar (ms / 3600000 / 10), Nat.digitChar (ms / 3600000 % 10), ':',
   Nat.digitChar (ms / 60000 % 60 / 10), Nat.digitChar (ms / 60000 % 60 % 10), ':',
   Nat.digitChar (ms / 1000 % 60 / 10), Nat.digitChar (ms / 1000 % 60 % 10), ',',
   Nat.digitChar (ms % 1000 / 100), Nat.digitChar (ms % 1000 / 10 % 10),
   Nat.digitChar (ms % 1000 % 10)]

/-- The ` --> ` separator of a timestamp line. -/
def arrowChars : List Char := [' ', '-', '-', '>', ' ']

/-- The full `HH:MM:SS,mmm --> HH:MM:SS,mmm` timestamp line of a cue. -/
def tsLineChars (c : SrtCue) : List Char :=
  tsChars c.startMs ++ arrowChars ++ tsChars c.stopMs

/-- Split a character list at a separator character (model of
JavaScript `split`): always returns at least one piece. -/
def splitOnChar (sep : Char) : List Char → List (List Char)
  | [] => [[]]
  | c :: t =>
      let r := splitOnChar sep t
      if c = sep then [] :: r
      else
        match r with
        | [] => [[c]]
        | h :: t2 => (c :: h) :: t2

/-- Join character lists with a separator character (model of joining
lines with a newline). -/
def intercalateChar (sep : Char) : List (List Char) → List Char
  | [] => []
  | [l] => l
  | l :: l2 :: ls => l ++ sep :: intercalateChar sep (l2 :: ls)

/-- Whitespace as JavaScript `trim` treats it (the characters that occur
in this development). -/
def isWsChar (c : Char) : Bool :=
  c = ' ' || c = '\t' || c = '\n' || c = '\r'

/-- Model of JavaScript `trim` on a character list. -/
def trimChars (l : List Char) : List Char :=
  ((l.dropWhile isWsChar).reverse.dropWhile isWsChar).reverse

/-- Numeric value of a decimal digit character. -/
def digitVal (c : Char) : Nat := c.toNat - 48

/-- Model of JavaScript `parseInt` on the (trimmed, unsigned) inputs the
parser feeds it: value of the maximal leading digit prefix, `none` for
`NaN`. -/
def jsParseNat (l : List Char) : Option Nat :=
  let ds := l.takeWhile Char.isDigit
  if ds = [] then none
  else some (ds.foldl (fun a c => a * 10 + digitVal c) 0)

/-- The in-progress subtitle record of `parseSrtContent`
(`{number, timestamp, text}`; empty string fields are the falsy "unset"
states of the source). -/
structure PartialCue where
  num : Option Nat
  ts : List Char
  text : List Char
deriving DecidableEq

/-- The `(number, timestamp line, text)` triple `parseSrtContent` pushes. -/
def finishCue (p : PartialCue) : Option Nat × List Char × List Char :=
  (p.num, p.ts, p.text)

/-- The line loop of `parseSrtContent` (SrtPreview component): blank
lines close the current subtitle; otherwise the first line is the
number, the second the timestamp, and further lines accumulate into the
text joined by newlines. -/
def parseSrtLoop :
    Option PartialCue → List (Option Nat × List Char × List Char) →
    List (List Char) → List (Option Nat × List Char × List Char)
  | cur, acc, [] =>
      match cur with
      | none => acc
      | some p => acc ++ [finishCue p]
  | cur, acc, l :: ls =>
      let t := trimChars l
      if t = [] then
        match cur with
        | some p => parseSrtLoop none (acc ++ [finishCue p]) ls
        | none => parseSrtLoop none acc ls
      else
        match cur with
        | none => parseSrtLoop (some ⟨jsParseNat t, [], []⟩) acc ls
        | some p =>
            if p.ts = [] then parseSrtLoop (some ⟨p.num, t, p.text⟩) acc ls
            else if p.text = [] then parseSrtLoop (some ⟨p.num, p.ts, t⟩) acc ls
            else parseSrtLoop (some ⟨p.num, p.ts, p.text ++ '\n' :: t⟩) acc ls

/-- `parseSrtContent`: split the document on newlines and run the line
loop. -/
def parseSrtContent (s : String) : List (Option Nat × List Char × List Char) :=
  parseSrtLoop none [] (splitOnChar '\n' s.data)

/-- The lines one cue encodes to: index line, timestamp line, the text's
lines, and a blank separator line. -/
def encodeCueLines (c : SrtCue) : List (List Char) :=
  [natDigitChars c.index, tsLineChars c] ++ splitOnChar '\n' c.text.data ++ [[]]

/-- All lines of an encoded subtitle document. -/
def encodeSrtLines (doc : List SrtCue) : List (List Char) :=
  (doc.map encodeCueLines).flatten

/-- The encoded subtitle document: its lines joined with newlines. -/
def encodeSrt (doc : List SrtCue) : String :=
  String.mk (intercalateChar '\n' (encodeSrtLines doc))

/-- The triple the parser is expected to recover for a cue. -/
def expectedEntry (c : SrtCue) : Option Nat × List Char × List Char :=
  (some c.index, tsLineChars c, c.text.data)

/-- A text round-trips through the preview parser when each of its lines
is unchanged by trimming and nonempty. -/
def goodText (t : List Char) : Prop :=
  ∀ l ∈ splitOnChar '\n' t, trimChars l = l ∧ l ≠ []

instance goodTextDecidable (t : List Char) : Decidable (goodText t) := by
  unfold goodText
  infer_instance

/-- Milliseconds of a time in seconds, rounded to nearest.  Modelled from
the spec (millisecond precision of the encoder). -/
def msOfTime (t : Rat) : Nat := (round (t * 1000) : Int).toNat

/-- Millisecond rendering of a pipeline cue. -/
def toSrtCue (c : Cue) : SrtCue :=
  ⟨c.index, msOfTime c.start, msOfTime c.stop, c.text⟩

/-- Encode a pipeline document (seconds-based cues) to SRT text. -/
def encodeSrtDocString (doc : List Cue) : String :=
  encodeSrt (doc.map toSrtCue)

/-! ## Request arbitrator

Modelled from the spec: admission records a monotonically increasing
sequence number in the process-wide "latest" register; when a job's
engine call returns, the job completes normally exactly when its
sequence number still equals the latest one, and is superseded
otherwise.  Cancellation is cooperative: it is decided only at
completion time, by that comparison. -/

/-- Arbitrator events: a job's admission (with its assigned sequence
number) and the return of a job's engine call. -/
inductive ArbEvent where
  | arrival (seq : Nat)
  | complete (seq : Nat)
deriving DecidableEq

/-- Terminal outcome of an arbitrated job. -/
inductive JobOutcome where
  | completed
  | superseded
deriving DecidableEq

/-- Arbitrator state: the latest admitted sequence number and the
outcomes recorded so far. -/
structure ArbState where
  latest : Nat
  outcomes : List (Nat × JobOutcome)
deriving DecidableEq

/-- One arbitrator step.  Admission updates the latest register;
completion records `completed` exactly when the finishing job is still
the latest, `superseded` otherwise. -/
def arbStep (st : ArbState) : ArbEvent → ArbState
  | .arrival s => { st with latest := s }
  | .complete s =>
      { st with
        outcomes :=
          st.outcomes ++ [(s, if s = st.latest then .completed else .superseded)] }

/-- Run the arbitrator over a trace of events from the initial state. -/
def runArb (es : List ArbEvent) : ArbState :=
  es.foldl arbStep ⟨0, []⟩

/-- The recorded outcome of job `s` after a trace. -/
def outcomeOf (es : List ArbEvent) (s : Nat) : Option JobOutcome :=
  (runArb es).outcomes.lookup s

/-- The two possible interleavings of the scenario of the claim: jobs
`s1` then `s2` are admitted, `s2` before `s1`'s engine call returns;
either engine call may physically finish first. -/
def twoJobTrace (s1 s2 : Nat) (s1FinishesFirst : Bool) : List ArbEvent :=
  if s1FinishesFirst then
    [.arrival s1, .arrival s2, .complete s1, .complete s2]
  else
    [.arrival s1, .arrival s2, .complete s2, .complete s1]

/-! ## Conversion responses

Modelled from the spec: the submit-conversion operation returns either
the encoded subtitle document with a suggested filename and supersession
metadata, a structured `{status: "cancelled", message}` result, or a
structured error. -/

/-- The three structured results of the submit-conversion operation. -/
inductive ConvertResponse where
  | success (srt : String) (filename : String)
      (supersededJob : Option (String × String))
  | cancelled (message : String)
  | error (detail : String)
deriving DecidableEq

/-- The subtitle content a response carries, if any. -/
def ConvertResponse.subtitleContent : ConvertResponse → Option String
  | .success srt _ _ => some srt
  | _ => none

/-- An admitted conversion job as the arbitrator tracks it. -/
structure PipelineJob where
  id : String
  filename : String
  seq : Nat
deriving DecidableEq

/-- Modelled from the spec: the decision taken after the transcript
producer returns for a job.  If the job's sequence number still equals
the globally latest one, the transcript flows through segmentation,
quantization and encoding into a success response; otherwise the
transcript is discarded and a cancellation result is returned. -/
def respondAfterTranscription (job : PipelineJob) (latestSeq : Nat)
    (words : List Word) (n : Nat) (f : Rat)
    (supersededJob : Option (String × String)) : ConvertResponse :=
  if job.seq = latestSeq then
    .success (encodeSrtDocString (quantizeDoc f (fixedSegmentation n words)))
      (downloadFilename job.filename) supersededJob
  else
    .cancelled "Request was superseded by a newer request"

/-- The three-word transcript of the spec's concrete scenario. -/
def demoWords : List Word :=
  [⟨"Hello", 0, 2 / 5⟩, ⟨"world", 1 / 2, 9 / 10⟩, ⟨"today", 1, 3 / 2⟩]

/-- A document whose cue text starts with a space: the preview parser
trims it away, so the encoded document does not parse back to it. -/
def c5BadDoc : List SrtCue := [⟨1, 0, 1000, " hi"⟩]

/-- The characters of the pattern `'.m4a'`. -/
def m4aChars : List Char := ['.', 'm', '4', 'a']

/-- The characters of the replacement `'.srt'`. -/
def srtChars : List Char := ['.', 's', 'r', 't']

/-! # Theorems -/

/-! ## C9: file uploader validation -/

theorem validM4aFile_iff (f : MFile) :
    validM4aFile f = true ↔
      (jsEndsWith (jsToLower f.name) ".m4a" = true ∧ f.size ≤ maxUploadSize) := by
  simp [validM4aFile, Bool.and_eq_true, Bool.not_eq_true', decide_eq_false_iff_not,
    Nat.not_lt]

/-- C9: both FileUploader paths invoke `onFileSelect` with the chosen file
exactly when the lowercased name ends in ".m4a" and the size is at most
104857600 bytes; a rejected selection performs no invocation and leaves
the previously selected file unchanged. -/
theorem claim_C9_uploader_validation (f : MFile) (sel : Option MFile) :
    ((handleFileChange [f] = [f] ∧ handleDrop [f] = [f]) ↔
      (jsEndsWith (jsToLower f.name) ".m4a" = true ∧ f.size ≤ 104857600))
    ∧ (¬ (jsEndsWith (jsToLower f.name) ".m4a" = true ∧ f.size ≤ 104857600) →
        handleFileChange [f] = [] ∧ applySelect sel (handleFileChange [f]) = sel ∧
        handleDrop [f] = [] ∧ applySelect sel (handleDrop [f]) = sel) := by
  have hmax : maxUploadSize = 104857600 := by norm_num [maxUploadSize]
  cases hv : validM4aFile f with
  | true =>
      have h := (validM4aFile_iff f).mp hv
      rw [hmax] at h
      constructor
      · simp [handleFileChange, handleDrop, hv, h]
      · intro hcon; exact absurd h hcon
  | false =>
      have h : ¬ (jsEndsWith (jsToLower f.name) ".m4a" = true ∧ f.size ≤ 104857600) := by
        intro hcon
        rw [← hmax] at hcon
        rw [(validM4aFile_iff f).mpr hcon] at hv
        exact Bool.noConfusion hv
      constructor
      · constructor
        · intro hcall
          have : handleFileChange [f] = [] := by simp [handleFileChange, hv]
          rw [this] at hcall
          exact absurd hcall.1.symm (List.cons_ne_nil f [])
        · intro hcon; exact absurd hcon h
      · intro _
        refine ⟨by simp [handleFileChange, hv], ?_, by simp [handleDrop, hv], ?_⟩ <;>
          simp [handleFileChange, handleDrop, hv, applySelect]

theorem claim_C9_witness :
    handleFileChange [⟨"A.TXT", 1⟩] = [] ∧
    applySelect none (handleFileChange [⟨"A.TXT", 1⟩]) = none ∧
    handleDrop [⟨"A.TXT", 1⟩] = [] ∧
    applySelect none (handleDrop [⟨"A.TXT", 1⟩]) = none :=
  (claim_C9_uploader_validation ⟨"A.TXT", 1⟩ none).2 (by decide)

/-! ## C10: settings handlers ignore NaN and out-of-range input -/

/-- C10: when the input parses to NaN (`none`) or to a value outside the
accepted range, neither settings handler calls `onSettingsChange`: the
result is `none` and the settings object is untouched. -/
theorem claim_C10_settings_no_update (s : UISettings) :
    handleWordsPerSegmentChange s none = none
    ∧ handleFrameRateChange s none = none
    ∧ (∀ v : Int, ¬ (1 ≤ v ∧ v ≤ 50) → handleWordsPerSegmentChange s (some v) = none)
    ∧ (∀ w : Rat, ¬ (0 < w ∧ w ≤ 120) → handleFrameRateChange s (some w) = none) := by
  refine ⟨rfl, rfl, ?_, ?_⟩ <;> intro v h <;>
    simp [handleWordsPerSegmentChange, handleFrameRateChange, h]

theorem claim_C10_witness :
    handleWordsPerSegmentChange defaultUISettings (some 0) = none :=
  (claim_C10_settings_no_update defaultUISettings).2.2.1 0 (by omega)

/-! ## C3: supersession outcome of two overlapping jobs -/

/-- C3: in the two-admission scenario (`s1` admitted, then `s2` admitted
before `s1`'s engine call returns), job `s1` resolves to superseded and
job `s2` to completed, regardless of which engine call finishes first;
the outcome is decided by comparing the job's sequence number with the
latest register at completion time. -/
theorem claim_C3_supersession (s1 s2 : Nat) (h : s1 < s2) (s1FinishesFirst : Bool) :
    outcomeOf (twoJobTrace s1 s2 s1FinishesFirst) s1 = some .superseded ∧
    outcomeOf (twoJobTrace s1 s2 s1FinishesFirst) s2 = some .completed := by
  have hne : s1 ≠ s2 := Nat.ne_of_lt h
  have e1 : (s1 == s2) = false := beq_eq_false_iff_ne.mpr hne
  have e2 : (s2 == s1) = false := beq_eq_false_iff_ne.mpr hne.symm
  cases s1FinishesFirst <;>
    simp [twoJobTrace, outcomeOf, runArb, arbStep, List.lookup, hne, e1, e2]

theorem claim_C3_witness :
    outcomeOf (twoJobTrace 1 2 false) 1 = some .superseded ∧
    outcomeOf (twoJobTrace 1 2 false) 2 = some .completed :=
  claim_C3_supersession 1 2 (by omega) false

/-! ## C4: superseded jobs yield a structured cancellation result -/

/-- C4: a job whose sequence number no longer equals the latest one
returns the `{status: "cancelled", message}` result: not a success, not
an error, carrying no subtitle content, and independent of the stale
transcript (which is thereby discarded). -/
theorem claim_C4_cancellation_result (job : PipelineJob) (latestSeq : Nat)
    (words words2 : List Word) (n : Nat) (f : Rat)
    (sup : Option (String × String)) (h : job.seq ≠ latestSeq) :
    respondAfterTranscription job latestSeq words n f sup =
      .cancelled "Request was superseded by a newer request"
    ∧ (respondAfterTranscription job latestSeq words n f sup).subtitleContent = none
    ∧ (∀ srt fn meta,
        respondAfterTranscription job latestSeq words n f sup ≠ .success srt fn meta)
    ∧ (∀ d, respondAfterTranscription job latestSeq words n f sup ≠ .error d)
    ∧ respondAfterTranscription job latestSeq words n f sup =
        respondAfterTranscription job latestSeq words2 n f sup := by
  simp [respondAfterTranscription, h, ConvertResponse.subtitleContent]

theorem claim_C4_witness :
    respondAfterTranscription ⟨"job1", "a.m4a", 1⟩ 2 [] 8 30 none =
      .cancelled "Request was superseded by a newer request" :=
  (claim_C4_cancellation_result ⟨"job1", "a.m4a", 1⟩ 2 [] [⟨"x", 0, 1⟩] 8 30 none
    (by decide)).1

/-! ## C6: accepted settings ranges -/

/-- C6 counterexample: the frame-rate handler accepts 0.5, which lies
outside the range 1-120 the claim states; the code's condition is
`value > 0 && value <= 120`. -/
theorem claim_C6_counterexample :
    (handleFrameRateChange defaultUISettings (some (1 / 2))).isSome = true
    ∧ ¬ ((1 : Rat) ≤ 1 / 2) := by
  constructor
  · norm_num [handleFrameRateChange]
  · norm_num

/-- C6 (amended): `words_per_segment` is accepted exactly when it is an
integer in 1-50 and `frame_rate` exactly when `0 < f ≤ 120`; the
next.js defaults are 8 and 30.0, and an accepted value updates exactly
that field. -/
theorem claim_C6_amended_ranges (s : UISettings) (v : Int) (w : Rat) :
    ((handleWordsPerSegmentChange s (some v)).isSome ↔ (1 ≤ v ∧ v ≤ 50))
    ∧ ((handleFrameRateChange s (some w)).isSome ↔ (0 < w ∧ w ≤ 120))
    ∧ defaultUISettings.wordsPerSegment = 8
    ∧ defaultUISettings.frameRate = 30
    ∧ (1 ≤ v ∧ v ≤ 50 →
        handleWordsPerSegmentChange s (some v) = some { s with wordsPerSegment := v })
    ∧ (0 < w ∧ w ≤ 120 →
        handleFrameRateChange s (some w) = some { s with frameRate := w }) := by
  refine ⟨?_, ?_, rfl, rfl, ?_, ?_⟩
  · by_cases h : 1 ≤ v ∧ v ≤ 50 <;> simp [handleWordsPerSegmentChange, h]
  · by_cases h : 0 < w ∧ w ≤ 120 <;> simp [handleFrameRateChange, h]
  · intro h; simp [handleWordsPerSegmentChange, h]
  · intro h; simp [handleFrameRateChange, h]

theorem claim_C6_witness :
    handleWordsPerSegmentChange defaultUISettings (some 8) =
      some { defaultUISettings with wordsPerSegment := 8 } :=
  (claim_C6_amended_ranges defaultUISettings 8 30).2.2.2.2.1 (by omega)

/-! ## C7: the suggested download filename -/

theorem isPrefixOf_append_of_le {pat s r : List Char} (h : pat.length ≤ s.length) :
    pat.isPrefixOf (s ++ r) = pat.isPrefixOf s := by
  induction pat generalizing s with
  | nil => simp [List.isPrefixOf]
  | cons p ps ih =>
      cases s with
      | nil => simp at h
      | cons a as =>
          show (p == a && ps.isPrefixOf (as ++ r)) = (p == a && ps.isPrefixOf as)
          rw [ih (by simpa using h)]

theorem m4a_not_isPrefixOf_append_short (s : List Char) (h1 : s ≠ [])
    (h2 : s.length < 4) : m4aChars.isPrefixOf (s ++ m4aChars) = false := by
  match s with
  | [] => exact absurd rfl h1
  | [a] =>
      simp [m4aChars, List.isPrefixOf, show ('m' == '.') = false from rfl]
  | [a, b] =>
      simp [m4aChars, List.isPrefixOf, show ('4' == '.') = false from rfl]
  | [a, b, c] =>
      simp [m4aChars, List.isPrefixOf, show ('a' == '.') = false from rfl]
  | a :: b :: c :: d :: t => simp at h2; omega

theorem replaceOnce_append_m4a (stem : List Char)
    (h : containsL m4aChars stem = false) :
    replaceOnceL m4aChars srtChars (stem ++ m4aChars) = stem ++ srtChars := by
  induction stem with
  | nil => rfl
  | cons c t ih =>
      have hsplit : m4aChars.isPrefixOf (c :: t) = false ∧ containsL m4aChars t = false := by
        have h2 := h
        simp only [containsL, Bool.or_eq_false_iff] at h2
        exact h2
      have hpre : m4aChars.isPrefixOf (c :: (t ++ m4aChars)) = false := by
        by_cases hlen : 4 ≤ (c :: t).length
        · have h3 : m4aChars.isPrefixOf ((c :: t) ++ m4aChars) =
              m4aChars.isPrefixOf (c :: t) :=
            isPrefixOf_append_of_le (by simp only [m4aChars]; simpa using hlen)
          simp only [List.cons_append] at h3
          rw [h3]; exact hsplit.1
        · have h4 := m4a_not_isPrefixOf_append_short (c :: t) (by simp)
            (by simp only [List.length_cons] at hlen ⊢; omega)
          simpa using h4
      simp only [List.cons_append, replaceOnceL]
      rw [if_neg (by simp [hpre])]
      show c :: replaceOnceL m4aChars srtChars (t ++ m4aChars) = c :: (t ++ srtChars)
      rw [ih hsplit.2]

/-- C7 counterexample: "A.M4A" passes the (case-insensitive) upload
validation, but `file.name.replace('.m4a', '.srt')` is case-sensitive
and leaves the name unchanged, so the suggested filename does not have
its extension replaced. -/
theorem claim_C7_counterexample :
    validM4aFile ⟨"A.M4A", 1⟩ = true
    ∧ downloadFilename "A.M4A" = "A.M4A"
    ∧ downloadFilename "A.M4A" ≠ "A" ++ ".srt" := by
  refine ⟨by decide, by decide, by decide⟩

/-- C7 (amended): the code replaces only the first occurrence of the
case-sensitive string ".m4a"; whenever the input filename is
`stem ++ ".m4a"` with no occurrence of ".m4a" inside `stem`, the
suggested filename is `stem ++ ".srt"`. -/
theorem claim_C7_amended_filename (stem : String)
    (h : containsL m4aChars stem.data = false) :
    downloadFilename (stem ++ ".m4a") = stem ++ ".srt" := by
  obtain ⟨l⟩ := stem
  show downloadFilename (String.mk l ++ ".m4a") = String.mk l ++ ".srt"
  have hdata : (String.mk l ++ ".m4a").data = l ++ m4aChars := rfl
  show String.mk (replaceOnceL ".m4a".data ".srt".data (String.mk l ++ ".m4a").data) =
    String.mk l ++ ".srt"
  rw [hdata, show ".m4a".data = m4aChars from rfl, show ".srt".data = srtChars from rfl,
    replaceOnce_append_m4a l h]
  rfl

theorem claim_C7_witness : downloadFilename ("voice" ++ ".m4a") = "voice" ++ ".srt" :=
  claim_C7_amended_filename "voice" (by decide)

/-! ## C1: fixed word-count segmentation -/

theorem wordGroups_length (n : Nat) (hn : 1 ≤ n) (ws : List Word) :
    (wordGroups n ws).length = (ws.length + n - 1) / n := by
  have key : ∀ L : Nat, (L - (n - 1) + n - 1) / n + 1 = (L + 1 + n - 1) / n := by
    intro L
    rcases le_or_lt (n - 1) L with h1 | h1
    · have e1 : L - (n - 1) + n - 1 = L := by omega
      have e2 : L + 1 + n - 1 = L + n := by omega
      rw [e1, e2, Nat.add_div_right L (by omega)]
    · have e1 : L - (n - 1) = 0 := by omega
      have e2 : L + 1 + n - 1 = L + n := by omega
      rw [e1, e2, Nat.add_div_right L (by omega)]
      have e3 : (0 + n - 1) / n = 0 := Nat.div_eq_of_lt (by omega)
      have e4 : L / n = 0 := Nat.div_eq_of_lt (by omega)
      omega
  induction ws using wordGroups.induct n with
  | case1 =>
      simp only [wordGroups, List.length_nil]
      exact (Nat.div_eq_of_lt (by omega)).symm
  | case2 w ws ih =>
      simp only [wordGroups, List.length_cons, List.length_drop] at ih ⊢
      rw [ih]
      exact key ws.length

theorem wordGroups_flatten (n : Nat) (ws : List Word) :
    (wordGroups n ws).flatten = ws := by
  induction ws using wordGroups.induct n with
  | case1 => simp [wordGroups]
  | case2 w ws ih => simp [wordGroups, ih]

theorem wordGroups_mem_bounds (n : Nat) (hn : 1 ≤ n) (ws : List Word) :
    ∀ g ∈ wordGroups n ws, g.length ≤ n ∧ g ≠ [] := by
  induction ws using wordGroups.induct n with
  | case1 => simp [wordGroups]
  | case2 w ws ih =>
      intro g hg
      simp only [wordGroups, List.mem_cons] at hg
      rcases hg with hg | hg
      · subst hg
        refine ⟨?_, by simp⟩
        simp only [List.length_cons, List.length_take]
        omega
      · exact ih g hg

theorem cuesFromGroups_length (i : Nat) (gs : List (List Word)) :
    (cuesFromGroups i gs).length = gs.length := by
  induction gs generalizing i with
  | nil => rfl
  | cons g gs ih => simp [cuesFromGroups, ih]

theorem cuesFromGroups_index (i : Nat) (gs : List (List Word)) :
    ∀ k (hk : k < (cuesFromGroups i gs).length),
      ((cuesFromGroups i gs).get ⟨k, hk⟩).index = i + k := by
  induction gs generalizing i with
  | nil => intro k hk; simp [cuesFromGroups] at hk
  | cons g gs ih =>
      intro k hk
      cases k with
      | zero => rfl
      | succ k2 =>
          have hk2 : k2 < (cuesFromGroups (i + 1) gs).length := by
            have h2 := hk
            simp only [cuesFromGroups, List.length_cons] at h2
            omega
          exact (ih (i + 1) k2 hk2).trans (by omega)

theorem cuesFromGroups_content (i : Nat) (gs : List (List Word)) :
    ∀ p ∈ (cuesFromGroups i gs).zip gs,
      p.1.start = groupStart p.2 ∧ p.1.stop = groupStop p.2 ∧
      p.1.text = groupText p.2 := by
  induction gs generalizing i with
  | nil => simp [cuesFromGroups]
  | cons g gs ih =>
      intro p hp
      simp only [cuesFromGroups, List.zip_cons_cons, List.mem_cons] at hp
      rcases hp with hp | hp
      · subst hp; exact ⟨rfl, rfl, rfl⟩
      · exact ih (i + 1) p hp

/-- C1: fixed segmentation yields exactly `⌈len/n⌉` cues, each group has
at most `n` words and the groups concatenate back to the word sequence;
the cue paired with each group starts at its first word's start, ends at
its last word's end, and its text is the words joined by single spaces;
indices are `1..len`; a word count at most `n` (nonempty) gives one cue. -/
theorem claim_C1_fixed_segmentation (ws : List Word) (n : Nat) (hn : 1 ≤ n) :
    (fixedSegmentation n ws).length = (ws.length + n - 1) / n
    ∧ (∀ g ∈ wordGroups n ws, g.length ≤ n)
    ∧ (wordGroups n ws).flatten = ws
    ∧ (∀ p ∈ (fixedSegmentation n ws).zip (wordGroups n ws),
        ∃ w0 wL rest, p.2 = w0 :: rest ∧ p.2.getLast? = some wL ∧
          p.1.start = w0.start ∧ p.1.stop = wL.stop ∧
          p.1.text = " ".intercalate (p.2.map Word.text))
    ∧ (∀ k (hk : k < (fixedSegmentation n ws).length),
        ((fixedSegmentation n ws).get ⟨k, hk⟩).index = k + 1)
    ∧ (ws ≠ [] → ws.length ≤ n → (fixedSegmentation n ws).length = 1) := by
  have hlen : (fixedSegmentation n ws).length = (ws.length + n - 1) / n := by
    rw [fixedSegmentation, cuesFromGroups_length]
    exact wordGroups_length n hn ws
  refine ⟨hlen, fun g hg => (wordGroups_mem_bounds n hn ws g hg).1,
    wordGroups_flatten n ws, ?_, ?_, ?_⟩
  · intro p hp
    have hcontent := cuesFromGroups_content 1 (wordGroups n ws) p hp
    have hmem : p.2 ∈ wordGroups n ws := (List.of_mem_zip hp).2
    have hne : p.2 ≠ [] := (wordGroups_mem_bounds n hn ws p.2 hmem).2
    obtain ⟨w0, rest, hgc⟩ : ∃ w0 rest, p.2 = w0 :: rest := by
      cases hgl : p.2 with
      | nil => exact absurd hgl hne
      | cons a b => exact ⟨a, b, rfl⟩
    refine ⟨w0, p.2.getLast hne, rest, hgc, List.getLast?_eq_getLast p.2 hne, ?_, ?_, ?_⟩
    · rw [hcontent.1, hgc]; rfl
    · rw [hcontent.2.1]
      unfold groupStop
      rw [List.getLast?_eq_getLast p.2 hne]
    · exact hcontent.2.2
  · intro k hk
    exact (cuesFromGroups_index 1 (wordGroups n ws) k hk).trans (Nat.add_comm 1 k)
  · intro hne hle
    rw [hlen]
    have hL : 1 ≤ ws.length := List.length_pos.mpr hne
    have e : ws.length + n - 1 = (ws.length - 1) + n := by omega
    rw [e, Nat.add_div_right _ (by omega),
      Nat.div_eq_of_lt (show ws.length - 1 < n by omega)]

theorem claim_C1_witness :
    (fixedSegmentation 2 demoWords).length = (demoWords.length + 2 - 1) / 2 :=
  (claim_C1_fixed_segmentation demoWords 2 (by omega)).1

/-! ## C2: timestamp quantization -/

/-- C2: after quantization at frame rate `f > 0`, each boundary is an
integer multiple of `1/f`, the end strictly exceeds the start (a
collapsed cue is extended by exactly one frame), cue order is preserved
(start times map monotonically), and index/text are untouched. -/
theorem claim_C2_quantizer (f : Rat) (hf : 0 < f) (c d : Cue) :
    (∃ k : Int, (quantizeCue f c).start = k / f)
    ∧ (∃ m : Int, (quantizeCue f c).stop = m / f)
    ∧ (quantizeCue f c).start < (quantizeCue f c).stop
    ∧ (c.start ≤ d.start → (quantizeCue f c).start ≤ (quantizeCue f d).start)
    ∧ (quantizeCue f c).index = c.index
    ∧ (quantizeCue f c).text = c.text
    ∧ (quantizeTime f c.stop ≤ quantizeTime f c.start →
        (quantizeCue f c).stop = (quantizeCue f c).start + 1 / f) := by
  have hstop : (quantizeCue f c).stop =
      (if quantizeTime f c.stop ≤ quantizeTime f c.start
       then quantizeTime f c.start + 1 / f else quantizeTime f c.stop) := rfl
  refine ⟨⟨round (c.start * f), rfl⟩, ?_, ?_, ?_, rfl, rfl, ?_⟩
  · by_cases h : quantizeTime f c.stop ≤ quantizeTime f c.start
    · refine ⟨round (c.start * f) + 1, ?_⟩
      rw [hstop, if_pos h]
      show ((round (c.start * f) : Int) : Rat) / f + 1 / f = _
      rw [div_add_div_same]
      push_cast
      ring
    · exact ⟨round (c.stop * f), by rw [hstop, if_neg h]; rfl⟩
  · rw [hstop]
    by_cases h : quantizeTime f c.stop ≤ quantizeTime f c.start
    · rw [if_pos h]
      have hpos : 0 < 1 / f := by positivity
      show quantizeTime f c.start < _
      linarith
    · rw [if_neg h]
      exact not_le.mp h
  · intro hsd
    show quantizeTime f c.start ≤ quantizeTime f d.start
    have h1 : round (c.start * f) ≤ round (d.start * f) := by
      rw [round_eq, round_eq]
      exact Int.floor_le_floor (by nlinarith)
    have h2 : ((round (c.start * f) : Int) : Rat) ≤ ((round (d.start * f) : Int) : Rat) := by
      exact_mod_cast h1
    unfold quantizeTime
    gcongr
  · intro h
    rw [hstop, if_pos h]
    rfl

theorem claim_C2_witness :
    (quantizeCue 30 ⟨1, 0, 9 / 10, "Hello world"⟩).start <
      (quantizeCue 30 ⟨1, 0, 9 / 10, "Hello world"⟩).stop :=
  (claim_C2_quantizer 30 (by norm_num) ⟨1, 0, 9 / 10, "Hello world"⟩
    ⟨2, 1, 3 / 2, "today"⟩).2.2.1

/-! ## C8: an empty transcript is a valid, empty result -/

/-- C8: no detected words yield a document with zero cues under either
segmentation policy, the quantizer keeps it empty, and the encoder emits
the empty document; every stage is total, so no error is raised. -/
theorem claim_C8_empty_transcript (n : Nat) (f : Rat) :
    fixedSegmentation n [] = []
    ∧ naturalSegmentation [] = []
    ∧ quantizeDoc f (fixedSegmentation n []) = []
    ∧ encodeSrtDocString (quantizeDoc f (fixedSegmentation n [])) = "" := by
  have h1 : fixedSegmentation n [] = [] := by
    simp [fixedSegmentation, wordGroups, cuesFromGroups]
  refine ⟨h1, rfl, ?_, ?_⟩
  · rw [h1]; rfl
  · rw [h1]; rfl

/-! ## C5: SRT encode/parse round trip -/

theorem splitOnChar_ne_nil (sep : Char) (l : List Char) : splitOnChar sep l ≠ [] := by
  induction l with
  | nil => simp [splitOnChar]
  | cons c t ih =>
      simp only [splitOnChar]
      by_cases hc : c = sep
      · simp [hc]
      · simp only [if_neg hc]
        cases hr : splitOnChar sep t with
        | nil => simp
        | cons h t2 => simp

theorem mem_splitOnChar_not_mem (sep : Char) (l : List Char) :
    ∀ p ∈ splitOnChar sep l, sep ∉ p := by
  induction l with
  | nil => intro p hp; simp [splitOnChar] at hp; simp [hp]
  | cons c t ih =>
      intro p hp
      simp only [splitOnChar] at hp
      by_cases hc : c = sep
      · rw [if_pos hc] at hp
        rcases List.mem_cons.mp hp with hp | hp
        · simp [hp]
        · exact ih p hp
      · rw [if_neg hc] at hp
        cases hr : splitOnChar sep t with
        | nil => exact absurd hr (splitOnChar_ne_nil sep t)
        | cons h t2 =>
            rw [hr] at hp
            rcases List.mem_cons.mp hp with hp | hp
            · subst hp
              intro hmem
              rcases List.mem_cons.mp hmem with hmem | hmem
              · exact hc hmem.symm
              · exact ih h (by rw [hr]; simp) hmem
            · exact ih p (by rw [hr]; simp [hp])

theorem intercalateChar_cons_eq (sep : Char) (l : List Char) (ls : List (List Char)) :
    intercalateChar sep (l :: ls) = l ++ (ls.map (fun x => sep :: x)).flatten := by
  induction ls generalizing l with
  | nil => simp [intercalateChar]
  | cons l2 ls ih =>
      rw [intercalateChar, ih l2]
      simp

theorem intercalateChar_splitOnChar (sep : Char) (l : List Char) :
    intercalateChar sep (splitOnChar sep l) = l := by
  induction l with
  | nil => rfl
  | cons c t ih =>
      simp only [splitOnChar]
      by_cases hc : c = sep
      · rw [if_pos hc]
        cases hr : splitOnChar sep t with
        | nil => exact absurd hr (splitOnChar_ne_nil sep t)
        | cons h t2 =>
            rw [intercalateChar]
            rw [hr] at ih
            rw [ih, hc]
            rfl
      · rw [if_neg hc]
        cases hr : splitOnChar sep t with
        | nil => exact absurd hr (splitOnChar_ne_nil sep t)
        | cons h t2 =>
            rw [hr] at ih
            cases t2 with
            | nil =>
                rw [intercalateChar]
                rw [intercalateChar] at ih
                rw [ih]
            | cons h2 t3 =>
                rw [intercalateChar]
                rw [intercalateChar] at ih
                rw [List.cons_append, ih]

theorem splitOnChar_not_mem_eq (sep : Char) (l : List Char) (h : sep ∉ l) :
    splitOnChar sep l = [l] := by
  induction l with
  | nil => rfl
  | cons c t ih =>
      have hc : ¬ c = sep := fun he => h (by simp [he])
      simp only [splitOnChar, if_neg hc]
      rw [ih (fun hm => h (by simp [hm]))]

theorem splitOnChar_append_cons (sep : Char) (l r : List Char) (h : sep ∉ l) :
    splitOnChar sep (l ++ sep :: r) = l :: splitOnChar sep r := by
  induction l with
  | nil => simp [splitOnChar]
  | cons c t ih =>
      have hc : ¬ c = sep := fun he => h (by simp [he])
      simp only [List.cons_append, splitOnChar, if_neg hc, List.append_eq]
      rw [ih (fun hm => h (by simp [hm]))]

theorem splitOnChar_intercalateChar (sep : Char) (ls : List (List Char))
    (h1 : ls ≠ []) (h2 : ∀ p ∈ ls, sep ∉ p) :
    splitOnChar sep (intercalateChar sep ls) = ls := by
  induction ls with
  | nil => exact absurd rfl h1
  | cons l ls ih =>
      cases ls with
      | nil =>
          rw [intercalateChar]
          exact splitOnChar_not_mem_eq sep l (h2 l (by simp))
      | cons l2 ls2 =>
          rw [intercalateChar, splitOnChar_append_cons sep l _ (h2 l (by simp))]
          rw [ih (by simp) (fun p hp => h2 p (by simp [List.mem_cons.mp hp]))]

theorem dropWhile_eq_self_of_false (p : Char → Bool) (l : List Char)
    (h : ∀ c ∈ l, p c = false) : l.dropWhile p = l := by
  cases l with
  | nil => rfl
  | cons c t =>
      rw [List.dropWhile_cons, if_neg (by simp [h c (by simp)])]

theorem trimChars_of_forall (l : List Char) (h : ∀ c ∈ l, isWsChar c = false) :
    trimChars l = l := by
  unfold trimChars
  rw [dropWhile_eq_self_of_false _ _ h,
    dropWhile_eq_self_of_false _ _ (fun c hc => h c (List.mem_reverse.mp hc)),
    List.reverse_reverse]

theorem trimChars_cons_append (a : Char) (m : List Char) (b : Char)
    (ha : isWsChar a = false) (hb : isWsChar b = false) :
    trimChars (a :: (m ++ [b])) = a :: (m ++ [b]) := by
  unfold trimChars
  rw [List.dropWhile_cons, if_neg (by simp [ha])]
  have hrev : (a :: (m ++ [b])).reverse = b :: (m.reverse ++ [a]) := by simp
  rw [hrev, List.dropWhile_cons, if_neg (by simp [hb]), ← hrev, List.reverse_reverse]

theorem digitChar_eq_star (x : Nat) (h : 16 ≤ x) : Nat.digitChar x = '*' := by
  have e0 : ¬ x = 0 := by omega
  have e1 : ¬ x = 1 := by omega
  have e2 : ¬ x = 2 := by omega
  have e3 : ¬ x = 3 := by omega
  have e4 : ¬ x = 4 := by omega
  have e5 : ¬ x = 5 := by omega
  have e6 : ¬ x = 6 := by omega
  have e7 : ¬ x = 7 := by omega
  have e8 : ¬ x = 8 := by omega
  have e9 : ¬ x = 9 := by omega
  have ea : ¬ x = 0xa := by omega
  have eb : ¬ x = 0xb := by omega
  have ec : ¬ x = 0xc := by omega
  have ed : ¬ x = 0xd := by omega
  have ee : ¬ x = 0xe := by omega
  have ef : ¬ x = 0xf := by omega
  unfold Nat.digitChar
  rw [if_neg e0, if_neg e1, if_neg e2, if_neg e3, if_neg e4, if_neg e5, if_neg e6,
    if_neg e7, if_neg e8, if_neg e9, if_neg ea, if_neg eb, if_neg ec, if_neg ed,
    if_neg ee, if_neg ef]

theorem digitChar_not_ws (x : Nat) : isWsChar (Nat.digitChar x) = false := by
  rcases Nat.lt_or_ge x 16 with h | h
  · interval_cases x <;> decide
  · rw [digitChar_eq_star x h]; decide

theorem digitChar_ne_newline (x : Nat) : Nat.digitChar x ≠ '\n' := by
  rcases Nat.lt_or_ge x 16 with h | h
  · interval_cases x <;> decide
  · rw [digitChar_eq_star x h]; decide

theorem digitChar_isDigit (d : Nat) (h : d < 10) : (Nat.digitChar d).isDigit = true := by
  interval_cases d <;> decide

theorem not_ws_of_isDigit (c : Char) (h : c.isDigit = true) : isWsChar c = false := by
  by_cases hw : isWsChar c = true
  · exfalso
    simp only [isWsChar, Bool.or_eq_true, decide_eq_true_eq] at hw
    rcases hw with ((hw | hw) | hw) | hw <;> subst hw <;> exact absurd h (by decide)
  · exact Bool.not_eq_true _ ▸ (by simpa using hw)

theorem digitVal_digitChar (d : Nat) (h : d < 10) : digitVal (Nat.digitChar d) = d := by
  interval_cases d <;> decide

theorem natDigitCharsAux_all_digit :
    ∀ fuel n, n < fuel → ∀ c ∈ natDigitCharsAux fuel n, c.isDigit = true := by
  intro fuel
  induction fuel with
  | zero => intro n h; exact absurd h (Nat.not_lt_zero n)
  | succ fuel ih =>
      intro n h c hc
      by_cases h10 : n < 10
      · rw [natDigitCharsAux, if_pos h10] at hc
        simp only [List.mem_singleton] at hc
        subst hc
        exact digitChar_isDigit n h10
      · rw [natDigitCharsAux, if_neg h10] at hc
        rcases List.mem_append.mp hc with hc | hc
        · have hdiv : n / 10 < fuel := by
            have hlt : n / 10 < n := Nat.div_lt_self (by omega) (by omega)
            omega
          exact ih (n / 10) hdiv c hc
        · simp only [List.mem_singleton] at hc
          subst hc
          exact digitChar_isDigit _ (Nat.mod_lt n (by omega))

theorem natDigitChars_all_digit (n : Nat) :
    ∀ c ∈ natDigitChars n, c.isDigit = true :=
  natDigitCharsAux_all_digit (n + 1) n (by omega)

theorem natDigitChars_ne_nil (n : Nat) : natDigitChars n ≠ [] := by
  show natDigitCharsAux (n + 1) n ≠ []
  by_cases h : n < 10
  · rw [natDigitCharsAux, if_pos h]; simp
  · rw [natDigitCharsAux, if_neg h]; simp

theorem natDigitCharsAux_val :
    ∀ fuel n, n < fuel →
      (natDigitCharsAux fuel n).foldl (fun a c => a * 10 + digitVal c) 0 = n := by
  intro fuel
  induction fuel with
  | zero => intro n h; exact absurd h (Nat.not_lt_zero n)
  | succ fuel ih =>
      intro n h
      by_cases h10 : n < 10
      · rw [natDigitCharsAux, if_pos h10]
        simp only [List.foldl_cons, List.foldl_nil]
        rw [digitVal_digitChar n h10]
        omega
      · have hdiv : n / 10 < fuel := by
          have hlt : n / 10 < n := Nat.div_lt_self (by omega) (by omega)
          omega
        rw [natDigitCharsAux, if_neg h10, List.foldl_append, ih (n / 10) hdiv]
        simp only [List.foldl_cons, List.foldl_nil]
        rw [digitVal_digitChar _ (Nat.mod_lt n (by omega))]
        omega

theorem natDigitChars_val (n : Nat) :
    (natDigitChars n).foldl (fun a c => a * 10 + digitVal c) 0 = n :=
  natDigitCharsAux_val (n + 1) n (by omega)

theorem takeWhile_eq_self_of_all (p : Char → Bool) (l : List Char)
    (h : ∀ c ∈ l, p c = true) : l.takeWhile p = l := by
  induction l with
  | nil => rfl
  | cons c t ih =>
      rw [List.takeWhile_cons, if_pos (by simp [h c (by simp)])]
      rw [ih (fun c2 h2 => h c2 (by simp [h2]))]

theorem jsParseNat_natDigitChars (n : Nat) : jsParseNat (natDigitChars n) = some n := by
  show (if (natDigitChars n).takeWhile Char.isDigit = [] then none
    else some (((natDigitChars n).takeWhile Char.isDigit).foldl
      (fun a c => a * 10 + digitVal c) 0)) = some n
  rw [takeWhile_eq_self_of_all _ _ (natDigitChars_all_digit n),
    if_neg (natDigitChars_ne_nil n), natDigitChars_val n]

theorem trim_natDigitChars (n : Nat) :
    trimChars (natDigitChars n) = natDigitChars n :=
  trimChars_of_forall _ (fun c hc => not_ws_of_isDigit c (natDigitChars_all_digit n c hc))

theorem newline_not_mem_natDigitChars (n : Nat) : '\n' ∉ natDigitChars n := by
  intro h
  exact absurd (natDigitChars_all_digit n _ h) (by decide)

theorem mem_tsChars_cases (ms : Nat) (x : Char) (hx : x ∈ tsChars ms) :
    (∃ d, x = Nat.digitChar d) ∨ x = ':' ∨ x = ',' := by
  simp only [tsChars, List.mem_cons, List.not_mem_nil, or_false] at hx
  rcases hx with h|h|h|h|h|h|h|h|h|h|h|h <;>
    first
      | exact Or.inl ⟨_, h⟩
      | exact Or.inr (Or.inl h)
      | exact Or.inr (Or.inr h)

theorem newline_not_mem_tsChars (ms : Nat) : '\n' ∉ tsChars ms := by
  intro h
  rcases mem_tsChars_cases ms _ h with ⟨d, hd⟩ | h2 | h2
  · exact digitChar_ne_newline d hd.symm
  · exact absurd h2 (by decide)
  · exact absurd h2 (by decide)

theorem newline_not_mem_tsLine (c : SrtCue) : '\n' ∉ tsLineChars c := by
  intro h
  simp only [tsLineChars, arrowChars, List.mem_append, List.mem_cons,
    List.not_mem_nil, or_false] at h
  rcases h with (h2 | h2) | h2
  · exact newline_not_mem_tsChars _ h2
  · rcases h2 with h3|h3|h3|h3|h3 <;> exact absurd h3 (by decide)
  · exact newline_not_mem_tsChars _ h2

theorem tsLineChars_shape (c : SrtCue) :
    tsLineChars c = Nat.digitChar (c.startMs / 3600000 / 10) ::
      ([Nat.digitChar (c.startMs / 3600000 % 10), ':',
        Nat.digitChar (c.startMs / 60000 % 60 / 10),
        Nat.digitChar (c.startMs / 60000 % 60 % 10), ':',
        Nat.digitChar (c.startMs / 1000 % 60 / 10),
        Nat.digitChar (c.startMs / 1000 % 60 % 10), ',',
        Nat.digitChar (c.startMs % 1000 / 100),
        Nat.digitChar (c.startMs % 1000 / 10 % 10),
        Nat.digitChar (c.startMs % 1000 % 10),
        ' ', '-', '-', '>', ' ',
        Nat.digitChar (c.stopMs / 3600000 / 10),
        Nat.digitChar (c.stopMs / 3600000 % 10), ':',
        Nat.digitChar (c.stopMs / 60000 % 60 / 10),
        Nat.digitChar (c.stopMs / 60000 % 60 % 10), ':',
        Nat.digitChar (c.stopMs / 1000 % 60 / 10),
        Nat.digitChar (c.stopMs / 1000 % 60 % 10), ',',
        Nat.digitChar (c.stopMs % 1000 / 100),
        Nat.digitChar (c.stopMs % 1000 / 10 % 10)] ++
       [Nat.digitChar (c.stopMs % 1000 % 10)]) := rfl

theorem trim_tsLine (c : SrtCue) : trimChars (tsLineChars c) = tsLineChars c := by
  rw [tsLineChars_shape c]
  exact trimChars_cons_append _ _ _ (digitChar_not_ws _) (digitChar_not_ws _)

theorem tsLine_ne_nil (c : SrtCue) : tsLineChars c ≠ [] := by
  rw [tsLineChars_shape c]
  simp

theorem parseSrtLoop_step_number (acc : List (Option Nat × List Char × List Char))
    (ls : List (List Char)) (l : List Char) (h1 : trimChars l = l) (h2 : l ≠ []) :
    parseSrtLoop none acc (l :: ls) =
      parseSrtLoop (some ⟨jsParseNat l, [], []⟩) acc ls := by
  simp only [parseSrtLoop]
  rw [h1, if_neg h2]

theorem parseSrtLoop_step_ts (num : Option Nat)
    (acc : List (Option Nat × List Char × List Char))
    (ls : List (List Char)) (l : List Char) (h1 : trimChars l = l) (h2 : l ≠ []) :
    parseSrtLoop (some ⟨num, [], []⟩) acc (l :: ls) =
      parseSrtLoop (some ⟨num, l, []⟩) acc ls := by
  simp only [parseSrtLoop]
  rw [h1, if_neg h2]
  simp

theorem parseSrtLoop_step_text_first (num : Option Nat) (ts : List Char)
    (acc : List (Option Nat × List Char × List Char))
    (ls : List (List Char)) (l : List Char) (h1 : trimChars l = l) (h2 : l ≠ [])
    (hts : ts ≠ []) :
    parseSrtLoop (some ⟨num, ts, []⟩) acc (l :: ls) =
      parseSrtLoop (some ⟨num, ts, l⟩) acc ls := by
  simp only [parseSrtLoop]
  rw [h1, if_neg h2, if_neg hts]
  simp

theorem parseSrtLoop_step_text_more (num : Option Nat) (ts cur : List Char)
    (acc : List (Option Nat × List Char × List Char))
    (ls : List (List Char)) (l : List Char) (h1 : trimChars l = l) (h2 : l ≠ [])
    (hts : ts ≠ []) (hcur : cur ≠ []) :
    parseSrtLoop (some ⟨num, ts, cur⟩) acc (l :: ls) =
      parseSrtLoop (some ⟨num, ts, cur ++ '\n' :: l⟩) acc ls := by
  simp only [parseSrtLoop]
  rw [h1, if_neg h2, if_neg hts, if_neg hcur]

theorem parseSrtLoop_step_blank_push (num : Option Nat) (ts cur : List Char)
    (acc : List (Option Nat × List Char × List Char)) (ls : List (List Char)) :
    parseSrtLoop (some ⟨num, ts, cur⟩) acc ([] :: ls) =
      parseSrtLoop none (acc ++ [(num, ts, cur)]) ls := rfl

theorem parseSrtLoop_text_accum (num : Option Nat) (ts : List Char) (hts : ts ≠ [])
    (acc : List (Option Nat × List Char × List Char)) (rest : List (List Char)) :
    ∀ ls : List (List Char), (∀ l ∈ ls, trimChars l = l ∧ l ≠ []) →
    ∀ cur : List Char, cur ≠ [] →
    parseSrtLoop (some ⟨num, ts, cur⟩) acc (ls ++ [] :: rest) =
      parseSrtLoop none
        (acc ++ [(num, ts, cur ++ (ls.map (fun l => '\n' :: l)).flatten)]) rest := by
  intro ls
  induction ls with
  | nil =>
      intro _ cur _
      simp only [List.map_nil, List.flatten_nil, List.append_nil, List.nil_append]
      exact parseSrtLoop_step_blank_push num ts cur acc rest
  | cons l ls2 ih =>
      intro hls cur hcur
      have hl := hls l (by simp)
      rw [List.cons_append,
        parseSrtLoop_step_text_more num ts cur acc _ l hl.1 hl.2 hts hcur,
        ih (fun l2 h2 => hls l2 (by simp [h2])) (cur ++ '\n' :: l) (by simp)]
      simp [List.append_assoc]

theorem parseSrtLoop_encodeCue (c : SrtCue) (hc : goodText c.text.data)
    (acc : List (Option Nat × List Char × List Char)) (rest : List (List Char)) :
    parseSrtLoop none acc (encodeCueLines c ++ rest) =
      parseSrtLoop none (acc ++ [expectedEntry c]) rest := by
  obtain ⟨t1, ts2, hsplit⟩ :=
    List.exists_cons_of_ne_nil (splitOnChar_ne_nil '\n' c.text.data)
  have hlines : encodeCueLines c ++ rest =
      natDigitChars c.index :: tsLineChars c :: t1 :: (ts2 ++ [] :: rest) := by
    simp [encodeCueLines, hsplit]
  rw [hlines]
  have ht1 : trimChars t1 = t1 ∧ t1 ≠ [] := hc t1 (by rw [hsplit]; simp)
  rw [parseSrtLoop_step_number acc _ _ (trim_natDigitChars c.index)
      (natDigitChars_ne_nil c.index),
    jsParseNat_natDigitChars,
    parseSrtLoop_step_ts (some c.index) acc _ _ (trim_tsLine c) (tsLine_ne_nil c),
    parseSrtLoop_step_text_first (some c.index) (tsLineChars c) acc _ t1 ht1.1 ht1.2
      (tsLine_ne_nil c),
    parseSrtLoop_text_accum (some c.index) (tsLineChars c) (tsLine_ne_nil c) acc rest
      ts2 (fun l2 hm => hc l2 (by rw [hsplit]; simp [hm])) t1 ht1.2]
  have htext : t1 ++ (ts2.map (fun l => '\n' :: l)).flatten = c.text.data := by
    rw [← intercalateChar_cons_eq '\n' t1 ts2, ← hsplit, intercalateChar_splitOnChar]
  rw [htext]
  rfl

theorem parseSrtLoop_encodeLines (doc : List SrtCue)
    (hdoc : ∀ c ∈ doc, goodText c.text.data)
    (acc : List (Option Nat × List Char × List Char)) :
    parseSrtLoop none acc (encodeSrtLines doc) = acc ++ doc.map expectedEntry := by
  induction doc generalizing acc with
  | nil =>
      simp only [encodeSrtLines, List.map_nil, List.flatten_nil, List.append_nil]
      rfl
  | cons c doc2 ih =>
      have he : encodeSrtLines (c :: doc2) = encodeCueLines c ++ encodeSrtLines doc2 := by
        simp [encodeSrtLines]
      rw [he, parseSrtLoop_encodeCue c (hdoc c (by simp)) acc _,
        ih (fun c2 h2 => hdoc c2 (by simp [h2])) (acc ++ [expectedEntry c])]
      simp

theorem encodeSrtLines_no_newline (doc : List SrtCue) :
    ∀ l ∈ encodeSrtLines doc, '\n' ∉ l := by
  intro l hl
  simp only [encodeSrtLines, List.mem_flatten, List.mem_map] at hl
  obtain ⟨L, ⟨cc, hcc, hLe⟩, hlL⟩ := hl
  subst hLe
  have hcases : l = natDigitChars cc.index ∨ l = tsLineChars cc ∨
      l ∈ splitOnChar '\n' cc.text.data ∨ l = [] := by
    simpa [encodeCueLines, List.mem_append, or_assoc] using hlL
  rcases hcases with h | h | h | h
  · subst h; exact newline_not_mem_natDigitChars _
  · subst h; exact newline_not_mem_tsLine _
  · exact mem_splitOnChar_not_mem '\n' _ l h
  · subst h; simp

theorem parseSrtContent_encodeSrt (doc : List SrtCue)
    (hdoc : ∀ c ∈ doc, goodText c.text.data) :
    parseSrtContent (encodeSrt doc) = doc.map expectedEntry := by
  cases doc with
  | nil => rfl
  | cons c doc2 =>
      show parseSrtLoop none []
        (splitOnChar '\n'
          (String.mk (intercalateChar '\n' (encodeSrtLines (c :: doc2)))).data) = _
      have hne : encodeSrtLines (c :: doc2) ≠ [] := by
        simp [encodeSrtLines, encodeCueLines]
      have hdata : (String.mk (intercalateChar '\n' (encodeSrtLines (c :: doc2)))).data =
          intercalateChar '\n' (encodeSrtLines (c :: doc2)) := rfl
      rw [hdata,
        splitOnChar_intercalateChar '\n' _ hne (encodeSrtLines_no_newline _)]
      exact (parseSrtLoop_encodeLines _ hdoc []).trans (by simp)

theorem digitChar_inj10 (a b : Nat) (ha : a < 10) (hb : b < 10)
    (h : Nat.digitChar a = Nat.digitChar b) : a = b := by
  interval_cases a <;> interval_cases b <;> first | rfl | exact absurd h (by decide)

theorem tsChars_inj (a b : Nat) (ha : a < 360000000) (hb : b < 360000000)
    (h : tsChars a = tsChars b) : a = b := by
  simp only [tsChars, List.cons.injEq, and_true] at h
  obtain ⟨h1, h2, -, h3, h4, -, h5, h6, -, h7, h8, h9⟩ := h
  have e1 := digitChar_inj10 _ _ (by omega) (by omega) h1
  have e2 := digitChar_inj10 _ _ (by omega) (by omega) h2
  have e3 := digitChar_inj10 _ _ (by omega) (by omega) h3
  have e4 := digitChar_inj10 _ _ (by omega) (by omega) h4
  have e5 := digitChar_inj10 _ _ (by omega) (by omega) h5
  have e6 := digitChar_inj10 _ _ (by omega) (by omega) h6
  have e7 := digitChar_inj10 _ _ (by omega) (by omega) h7
  have e8 := digitChar_inj10 _ _ (by omega) (by omega) h8
  have e9 := digitChar_inj10 _ _ (by omega) (by omega) h9
  omega

theorem tsLine_inj (c c2 : SrtCue) (h1 : c.startMs < 360000000)
    (h2 : c.stopMs < 360000000) (h3 : c2.startMs < 360000000)
    (h4 : c2.stopMs < 360000000) (h : tsLineChars c = tsLineChars c2) :
    c.startMs = c2.startMs ∧ c.stopMs = c2.stopMs := by
  unfold tsLineChars at h
  obtain ⟨hleft, hright⟩ := List.append_inj' h (by simp [tsChars])
  obtain ⟨hA, -⟩ := List.append_inj' hleft rfl
  exact ⟨tsChars_inj _ _ h1 h3 hA, tsChars_inj _ _ h2 h4 hright⟩

/-- C5 counterexample: a document whose cue text begins with a space.
The preview parser trims every line, so parsing the encoded document
does not recover the original `(index, timestamp, text)` tuples: the
claim fails for this SubtitleDocument. -/
theorem claim_C5_counterexample :
    parseSrtContent (encodeSrt c5BadDoc) ≠ c5BadDoc.map expectedEntry := by
  decide

/-- C5 (amended): for documents whose cue text lines are unchanged by
trimming and nonempty, parsing the encoded document recovers exactly the
ordered (number, timestamp line, text) triples, with the cue number
recovered as the encoded index; and on millisecond timestamps below 100
hours the timestamp line determines start and end exactly (millisecond
precision). -/
theorem claim_C5_amended_roundtrip (doc : List SrtCue)
    (hdoc : ∀ c ∈ doc, goodText c.text.data) :
    parseSrtContent (encodeSrt doc) = doc.map expectedEntry
    ∧ (∀ c c2 : SrtCue, c.startMs < 360000000 → c.stopMs < 360000000 →
        c2.startMs < 360000000 → c2.stopMs < 360000000 →
        tsLineChars c = tsLineChars c2 →
        c.startMs = c2.startMs ∧ c.stopMs = c2.stopMs) :=
  ⟨parseSrtContent_encodeSrt doc hdoc,
    fun c c2 a b a2 b2 h => tsLine_inj c c2 a b a2 b2 h⟩

theorem claim_C5_witness :
    parseSrtContent (encodeSrt [⟨1, 0, 1000, "hi"⟩, ⟨2, 1000, 2500, "a b"⟩]) =
      [(⟨1, 0, 1000, "hi"⟩ : SrtCue), ⟨2, 1000, 2500, "a b"⟩].map expectedEntry :=
  (claim_C5_amended_roundtrip [⟨1, 0, 1000, "hi"⟩, ⟨2, 1000, 2500, "a b"⟩]
    (by decide)).1

end MicroSaas
